import Mathlib

/-
  Verification of the ResNet serving pipeline defined in
  resnet_training_to_serving_solution.ipynb (TensorFlow Estimator path)
  and the companion Keras notebook.

  The pipeline is embedded shallowly: the decoded uint8 image tensor is a
  function into Fin 256, pixel arithmetic is over ℚ, softmax is idealized
  over ℝ, and the fallible JPEG decoder (tf.image.decode_jpeg) is a
  parameter returning Option.  The external ResNet network is a parameter
  mapping a preprocessed image to its 1001-way score row.
-/

namespace ResNetServing

/-- RESNET_SIZE from the notebook (number of layers of the loaded model). -/
def RESNET_SIZE : Nat := 50

/-- _DEFAULT_IMAGE_SIZE copied from imagenet_main.py in the notebook. -/
def DEFAULT_IMAGE_SIZE : Nat := 224

/-- _NUM_CHANNELS copied from imagenet_main.py in the notebook. -/
def NUM_CHANNELS : Nat := 3

/-- _LABEL_CLASSES copied from imagenet_main.py: 1000 ImageNet categories
plus one unknown/background class. -/
def LABEL_CLASSES : Nat := 1001

/-- TOP_K from the notebook: the number of classes and probabilities
returned per image. -/
def TOP_K : Nat := 5

/-- A JPEG-encoded image sent by the client: an opaque byte string. -/
def ByteSeq : Type := List Nat

/-- The decoded 224 x 224 x 3 uint8 tensor produced by
tf.image.decode_jpeg(encoded_image, channels=3): height, width, channel
indices mapping to a byte value. -/
def Image : Type := Fin 224 → Fin 224 → Fin 3 → Fin 256

/-- A 224 x 224 x 3 float tensor: the result of normalizing a decoded
image (pixel values in ℚ). -/
def FloatImage : Type := Fin 224 → Fin 224 → Fin 3 → ℚ

/-- The per-channel-value normalization in the Estimator notebook's
preprocess_image: tf.to_float(image) / 255.0 - 0.5. -/
def normalizePixel (v : ℚ) : ℚ := v / 255 - 1/2

/-- The Estimator notebook's normalization applied to a whole decoded
image: every channel value is converted to float and mapped to
v / 255.0 - 0.5. -/
def normalizeImage (img : Image) : FloatImage :=
  fun y x c => normalizePixel ((img y x c : ℕ) : ℚ)

/-- preprocess_image from the Estimator notebook: decode the JPEG byte
string into a 3-channel uint8 tensor, then normalize values to be between
-0.5 and 0.5.  tf.image.decode_jpeg is a library call, modelled by the
`decodeJpeg` parameter, which returns `none` exactly when decoding fails
(a DecodeError). -/
def preprocess_image (decodeJpeg : ByteSeq → Option Image) (encodedImage : ByteSeq) :
    Option FloatImage :=
  (decodeJpeg encodedImage).map normalizeImage

/-- tf.map_fn applied to a batch whose element op can fail: in TensorFlow a
failure of any element op fails the whole op (the session run produces no
output at all), so the batch map is `none` when any element is. -/
def mapFn {α β : Type} (f : α → Option β) : List α → Option (List β)
  | [] => some []
  | a :: as =>
    match f a, mapFn f as with
    | some b, some bs => some (b :: bs)
    | _, _ => none

/-- The comparator realizing tf.nn.top_k's documented output order on
(score, column index) pairs: larger scores come first, and equal scores
are ordered by lower column index first. -/
def topKLE (a b : ℚ × ℕ) : Bool :=
  decide (b.1 < a.1 ∨ (a.1 = b.1 ∧ a.2 ≤ b.2))

/-- One row of scores paired with its column indices, as (score, index). -/
def enumRow (row : List ℚ) : List (ℚ × ℕ) :=
  row.enum.map (fun p => (p.2, p.1))

/-- tf.nn.top_k(row, k): the k largest entries of the row together with
their column indices, sorted by descending score, ties broken by lowest
column index first (TensorFlow's documented tie-breaking). -/
def topK (k : ℕ) (row : List ℚ) : List (ℚ × ℕ) :=
  ((enumRow row).mergeSort topKLE).take k

/-- The 'classes' component of the notebook's per-row reduction: the
column indices returned by tf.nn.top_k(logits, k=TOP_K). -/
def topKClasses (row : List ℚ) : List ℕ :=
  (topK TOP_K row).map Prod.snd

/-- The top-k logit values returned by tf.nn.top_k(logits, k=TOP_K). -/
def topKLogits (row : List ℚ) : List ℚ :=
  (topK TOP_K row).map Prod.fst

/-- tf.nn.softmax on a 1-D tensor, idealized over ℝ: each entry x maps to
exp x divided by the sum of exp over the whole input. -/
noncomputable def softmax (xs : List ℝ) : List ℝ :=
  xs.map (fun x => Real.exp x / (xs.map Real.exp).sum)

/-- The 'probabilities' component of the notebook's per-row reduction:
tf.nn.softmax applied to only the TOP_K logits selected by tf.nn.top_k,
not to the full 1001-way score vector. -/
noncomputable def topKProbs (row : List ℚ) : List ℝ :=
  softmax ((topKLogits row).map (fun q : ℚ => (q : ℝ)))

/-- The failure raised when a JPEG byte string cannot be decoded. -/
inductive DecodeError : Type
  | invalidJpeg : DecodeError
deriving DecidableEq

/-- The predictions dictionary built by resnet_model_fn: fields 'classes'
and 'probabilities', one inner list per image of the batch. -/
structure Predictions : Type where
  classes : List (List ℕ)
  probabilities : List (List ℝ)

/-- resnet_model_fn in PREDICT mode: read features['images'] (a batch of
JPEG byte strings), preprocess each with tf.map_fn(preprocess_image, ·),
feed the stacked batch through the ResNet network (the `network`
parameter, producing one score row per image), and reduce each row with
tf.nn.top_k and tf.nn.softmax into the predictions dictionary.  A decode
failure of any image fails the whole call with no partial output. -/
noncomputable def resnet_model_fn (decodeJpeg : ByteSeq → Option Image)
    (network : FloatImage → List ℚ) (images : List ByteSeq) :
    Except DecodeError Predictions :=
  match mapFn (preprocess_image decodeJpeg) images with
  | none => .error DecodeError.invalidJpeg
  | some processedImages =>
    let logits := processedImages.map network
    .ok { classes := logits.map topKClasses
          probabilities := logits.map topKProbs }

/-- The fixed per-channel means subtracted by
keras.applications.resnet50.preprocess_input (caffe mode), indexed in the
converted BGR channel order. -/
def kerasChannelMean : Fin 3 → ℚ
  | 0 => 103.939
  | 1 => 116.779
  | 2 => 123.68

/-- The RGB to BGR channel reversal performed by
keras.applications.resnet50.preprocess_input. -/
def channelReverse : Fin 3 → Fin 3
  | 0 => 2
  | 1 => 1
  | 2 => 0

/-- keras.applications.resnet50.preprocess_input on one pixel (a library
call of the Keras notebook's preprocess_image): reverse the channels from
RGB to BGR, then subtract a fixed per-channel mean; no rescaling to unit
range is applied. -/
def kerasPreprocessInput (px : Fin 3 → ℚ) : Fin 3 → ℚ :=
  fun c => px (channelReverse c) - kerasChannelMean c

/-- preprocess_image from the Keras notebook applied to a decoded image:
tf.to_float followed by preprocess_input (mean subtraction with channel
reversal, no division by 255 and no 0.5 shift). -/
def kerasPreprocessImage (img : Image) : FloatImage :=
  fun y x c => kerasPreprocessInput (fun c2 => ((img y x c2 : ℕ) : ℚ)) c

/-- The external contract of an exported servable: the signature key the
client calls, the request field names, and the response field names. -/
structure ServableSignature : Type where
  signatureKey : String
  requestFields : List String
  responseFields : List String
deriving DecidableEq

/-- The contract exported by the Estimator path: serving_input_receiver_fn
declares the single request field 'images' (an arbitrary-length array of
strings), and create_servable_estimator_spec registers
PredictOutput(outputs=predictions) under export_outputs key 'predict',
where the predictions dictionary has fields 'classes' and
'probabilities'. -/
def estimatorSignature : ServableSignature :=
  { signatureKey := "predict"
    requestFields := ["images"]
    responseFields := ["classes", "probabilities"] }

/-- The contract exported by the Keras path: predict_signature_def with
inputs dictionary key 'images' and outputs dictionary keys 'classes' and
'probabilities', registered in signature_def_map under key 'predict'. -/
def kerasSignature : ServableSignature :=
  { signatureKey := "predict"
    requestFields := ["images"]
    responseFields := ["classes", "probabilities"] }

/-- Modelled from the spec: the Keras notebook in src leaves its top-k
graph component as a fill-in-the-blank (`top_k_probs, top_k_classes = ???`,
with the hint to mirror resnet_model_fn of the Estimator notebook), and
the solution notebook for the Keras path is not in src.  Following the
spec, the reduction is the same top-K selection followed by softmax
restricted to the selected logits as in the Estimator path. -/
noncomputable def kerasTopKReduction (row : List ℚ) : List ℝ × List ℕ :=
  (topKProbs row, topKClasses row)

/-- The failure raised on invalid build-time configuration, in particular
when exporting to an already-existing version directory. -/
inductive ConfigurationError : Type
  | versionExists : ConfigurationError
deriving DecidableEq

/-- The state of the export directory tree: each integer version number
maps to the servable bundle saved under it, if any.  The bundle content is
abstracted by its exported signature. -/
def VersionStore : Type := ℕ → Option ServableSignature

/-- Modelled from the spec: saved_model_builder.SavedModelBuilder(SERVING_DIR)
is a library call whose body is not in src; the Keras notebook documents
that saving a servable to a version directory that already holds one
"will fail hard".  Following the spec, exporting to an existing version
fails with a ConfigurationError and returns the store unchanged; exporting
to a fresh version records the bundle there. -/
def exportServable (store : VersionStore) (version : ℕ) (bundle : ServableSignature) :
    Option ConfigurationError × VersionStore :=
  match store version with
  | some _ => (some ConfigurationError.versionExists, store)
  | none => (none, fun v => if v = version then some bundle else store v)

/-! Helper lemmas about the top-k selection. -/

theorem topKLE_trans (a b c : ℚ × ℕ) (hab : topKLE a b = true) (hbc : topKLE b c = true) :
    topKLE a c = true := by
  simp only [topKLE, decide_eq_true_eq] at *
  rcases hab with h1 | ⟨h1, h1i⟩ <;> rcases hbc with h2 | ⟨h2, h2i⟩
  · exact Or.inl (h2.trans h1)
  · exact Or.inl (h2 ▸ h1)
  · exact Or.inl (lt_of_lt_of_le h2 (le_of_eq h1.symm))
  · exact Or.inr ⟨h1.trans h2, le_trans h1i h2i⟩

theorem topKLE_total (a b : ℚ × ℕ) : (topKLE a b || topKLE b a) = true := by
  simp only [topKLE, Bool.or_eq_true, decide_eq_true_eq]
  rcases lt_trichotomy a.1 b.1 with h | h | h
  · exact Or.inr (Or.inl h)
  · rcases le_total a.2 b.2 with hi | hi
    · exact Or.inl (Or.inr ⟨h, hi⟩)
    · exact Or.inr (Or.inr ⟨h.symm, hi⟩)
  · exact Or.inl (Or.inl h)

theorem sorted_topK (k : ℕ) (row : List ℚ) :
    (topK k row).Pairwise (fun a b => topKLE a b = true) :=
  List.Pairwise.sublist (List.take_sublist k _)
    (List.sorted_mergeSort topKLE_trans topKLE_total (enumRow row))

theorem topK_length (k : ℕ) (row : List ℚ) : (topK k row).length = min k row.length := by
  simp [topK, enumRow, List.length_take, List.length_mergeSort, List.enum_length]

theorem topK_mem (k : ℕ) (row : List ℚ) {p : ℚ × ℕ} (hp : p ∈ topK k row) :
    ∃ h : p.2 < row.length, row.get ⟨p.2, h⟩ = p.1 := by
  have h1 : p ∈ (enumRow row).mergeSort topKLE := (List.take_sublist k _).mem hp
  have h2 : p ∈ enumRow row := (List.mergeSort_perm (enumRow row) topKLE).mem_iff.mp h1
  rw [enumRow, List.mem_map] at h2
  obtain ⟨q, hq, hqe⟩ := h2
  have hq2 : (q.1, q.2) ∈ row.enum := by simpa using hq
  obtain ⟨hlt, hv⟩ := List.mem_enum hq2
  subst hqe
  exact ⟨hlt, by simp [hv]⟩

theorem mergeSortRow_index_nodup (row : List ℚ) :
    (((enumRow row).mergeSort topKLE).map Prod.snd).Nodup := by
  have h1 : (enumRow row).map Prod.snd = row.enum.map Prod.fst := by
    rw [enumRow, List.map_map]
    rfl
  have h2 : ((enumRow row).map Prod.snd).Nodup := by
    rw [h1]; exact List.nodup_enum_map_fst row
  exact (((List.mergeSort_perm (enumRow row) topKLE).map Prod.snd).symm).nodup h2

theorem topK_index_pairwise_ne (k : ℕ) (row : List ℚ) :
    (topK k row).Pairwise (fun a b => a.2 ≠ b.2) := by
  have h1 : ((topK k row).map Prod.snd).Nodup :=
    ((List.take_sublist k _).map Prod.snd).nodup (mergeSortRow_index_nodup row)
  exact List.pairwise_map.mp h1

theorem topK_pairwise_strict (k : ℕ) (row : List ℚ) :
    (topK k row).Pairwise (fun a b => b.1 < a.1 ∨ (a.1 = b.1 ∧ a.2 < b.2)) := by
  refine ((sorted_topK k row).and (topK_index_pairwise_ne k row)).imp ?_
  intro a b hab
  obtain ⟨hle, hne⟩ := hab
  simp only [topKLE, decide_eq_true_eq] at hle
  rcases hle with h | ⟨h, hi⟩
  · exact Or.inl h
  · exact Or.inr ⟨h, lt_of_le_of_ne hi hne⟩

theorem topK_dropped (k : ℕ) (row : List ℚ) (j : ℕ) (hj : j < row.length)
    (hnot : (row.get ⟨j, hj⟩, j) ∉ topK k row) :
    ∀ p ∈ topK k row, row.get ⟨j, hj⟩ < p.1 ∨ (row.get ⟨j, hj⟩ = p.1 ∧ p.2 < j) := by
  intro p hp
  have hsorted : ((enumRow row).mergeSort topKLE).Pairwise
      (fun a b => topKLE a b = true ∧ a.2 ≠ b.2) :=
    (List.sorted_mergeSort topKLE_trans topKLE_total (enumRow row)).and
      (List.pairwise_map.mp (mergeSortRow_index_nodup row))
  have hsplit := (List.take_append_drop k ((enumRow row).mergeSort topKLE)).symm
  rw [hsplit] at hsorted
  have hcross := (List.pairwise_append.mp hsorted).2.2
  have hj2 : j < row.enum.length := by simpa [List.enum_length] using hj
  have hmemEnum : (j, row.get ⟨j, hj⟩) ∈ row.enum := by
    have hg := List.getElem_mem hj2
    rw [List.getElem_enum] at hg
    simpa [List.get_eq_getElem] using hg
  have hmem : (row.get ⟨j, hj⟩, j) ∈ (enumRow row).mergeSort topKLE := by
    refine (List.mergeSort_perm (enumRow row) topKLE).mem_iff.mpr ?_
    rw [enumRow, List.mem_map]
    exact ⟨(j, row.get ⟨j, hj⟩), hmemEnum, rfl⟩
  rw [hsplit] at hmem
  have hdrop : (row.get ⟨j, hj⟩, j) ∈ ((enumRow row).mergeSort topKLE).drop k := by
    rcases List.mem_append.mp hmem with h | h
    · exact absurd h hnot
    · exact h
  have hrel := hcross p hp _ hdrop
  obtain ⟨hle, hne⟩ := hrel
  simp only [topKLE, decide_eq_true_eq] at hle
  rcases hle with h | ⟨h, hi⟩
  · exact Or.inl h
  · exact Or.inr ⟨h.symm, lt_of_le_of_ne hi (by simpa using hne)⟩

/-! Helper lemmas about softmax and the batch map. -/

theorem exp_sum_pos (xs : List ℝ) (h : xs ≠ []) : 0 < (xs.map Real.exp).sum := by
  refine List.sum_pos _ ?_ ?_
  · intro y hy
    obtain ⟨x, _, hxy⟩ := List.mem_map.mp hy
    rw [← hxy]
    exact Real.exp_pos x
  · simpa using h

theorem softmax_sum (xs : List ℝ) (h : xs ≠ []) : (softmax xs).sum = 1 := by
  have hS := exp_sum_pos xs h
  rw [softmax]
  simp only [div_eq_mul_inv]
  rw [List.sum_map_mul_right]
  exact mul_inv_cancel₀ (ne_of_gt hS)

theorem softmax_length (xs : List ℝ) : (softmax xs).length = xs.length := by
  simp [softmax]

theorem softmax_sorted (xs : List ℝ) (h : xs.Pairwise (fun a b => b ≤ a)) :
    (softmax xs).Pairwise (fun a b => b ≤ a) := by
  rcases eq_or_ne xs [] with rfl | hne
  · simp [softmax]
  · have hS := exp_sum_pos xs hne
    refine List.Pairwise.map _ ?_ h
    intro a b hba
    exact (div_le_div_iff_of_pos_right hS).mpr (Real.exp_le_exp.mpr hba)

theorem mapFn_eq_none {α β : Type} (f : α → Option β) (l : List α) :
    mapFn f l = none ↔ ∃ a ∈ l, f a = none := by
  induction l with
  | nil => simp [mapFn]
  | cons a as ih =>
    constructor
    · intro h
      cases hfa : f a with
      | none => exact ⟨a, List.mem_cons_self a as, hfa⟩
      | some b =>
        cases hrest : mapFn f as with
        | none =>
          obtain ⟨x, hx, hfx⟩ := ih.mp hrest
          exact ⟨x, List.mem_cons_of_mem a hx, hfx⟩
        | some bs =>
          rw [mapFn, hfa, hrest] at h
          exact absurd h (by simp)
    · rintro ⟨x, hx, hfx⟩
      rw [mapFn]
      rcases List.mem_cons.mp hx with rfl | hx2
      · rw [hfx]
      · rw [ih.mpr ⟨x, hx2, hfx⟩]
        cases f a <;> rfl

theorem mapFn_isSome {α β : Type} (f : α → Option β) (l : List α)
    (h : ∀ a ∈ l, (f a).isSome) :
    ∃ l2, mapFn f l = some l2 ∧ l2.length = l.length := by
  induction l with
  | nil => exact ⟨[], rfl, rfl⟩
  | cons a as ih =>
    obtain ⟨b, hb⟩ := Option.isSome_iff_exists.mp (h a (List.mem_cons_self a as))
    obtain ⟨l2, hl2, hlen⟩ := ih (fun x hx => h x (List.mem_cons_of_mem a hx))
    refine ⟨b :: l2, ?_, by simp [hlen]⟩
    rw [mapFn, hb, hl2]

theorem mapFn_ofFn {α β : Type} (f : α → Option β) {n : ℕ} (g : Fin n → α) (g2 : Fin n → β)
    (h : ∀ i, f (g i) = some (g2 i)) : mapFn f (List.ofFn g) = some (List.ofFn g2) := by
  induction n with
  | zero => rfl
  | succ n ih =>
    rw [List.ofFn_succ, List.ofFn_succ, mapFn, h 0,
      ih (fun i => g i.succ) (fun i => g2 i.succ) (fun i => h i.succ)]

theorem resnet_model_fn_ok (decodeJpeg : ByteSeq → Option Image)
    (network : FloatImage → List ℚ) (images : List ByteSeq)
    (processedImages : List FloatImage)
    (h : mapFn (preprocess_image decodeJpeg) images = some processedImages) :
    resnet_model_fn decodeJpeg network images =
      .ok { classes := (processedImages.map network).map topKClasses
            probabilities := (processedImages.map network).map topKProbs } := by
  rw [resnet_model_fn, h]

theorem resnet_model_fn_err (decodeJpeg : ByteSeq → Option Image)
    (network : FloatImage → List ℚ) (images : List ByteSeq)
    (h : mapFn (preprocess_image decodeJpeg) images = none) :
    resnet_model_fn decodeJpeg network images = .error DecodeError.invalidJpeg := by
  rw [resnet_model_fn, h]

theorem topKProbs_length (row : List ℚ) : (topKProbs row).length = min TOP_K row.length := by
  simp [topKProbs, softmax_length, topKLogits, topK_length]

theorem topKProbs_sum (row : List ℚ) (h : row ≠ []) : (topKProbs row).sum = 1 := by
  apply softmax_sum
  intro hnil
  apply h
  have hlen := congrArg List.length hnil
  simp only [topKLogits, List.length_map, List.length_nil, topK_length] at hlen
  have h0 : row.length = 0 := by
    have := hlen
    simp only [TOP_K] at this
    omega
  exact List.length_eq_zero.mp h0

theorem topKProbs_sorted (row : List ℚ) :
    (topKProbs row).Pairwise (fun a b => b ≤ a) := by
  apply softmax_sorted
  refine List.pairwise_map.mpr ?_
  refine List.pairwise_map.mpr ?_
  refine (sorted_topK TOP_K row).imp ?_
  intro a b hab
  simp only [topKLE, decide_eq_true_eq] at hab
  rcases hab with h | ⟨h, _⟩
  · exact_mod_cast h.le
  · exact_mod_cast le_of_eq h.symm

theorem normalizePixel_bounds (v : ℚ) (h0 : 0 ≤ v) (h1 : v ≤ 255) :
    -(1/2) ≤ normalizePixel v ∧ normalizePixel v ≤ 1/2 := by
  have ha : 0 ≤ v / 255 := div_nonneg h0 (by norm_num)
  have hb : v / 255 ≤ 1 := (div_le_one (by norm_num)).mpr h1
  rw [normalizePixel]
  constructor <;> linarith

/-! The claims. -/

/-- C3: the top-K reduction selects, per score row, the TOP_K = 5 largest raw
scores together with their column indices, sorted by descending score with
ties broken by the lowest column index first: every returned pair is a real
entry of the row, returned pairs are strictly ordered (score descending,
index ascending among equal scores), and every entry of the row that was not
returned is either strictly smaller than each returned score or ties one
with a strictly larger column index.  The reduction is a pure function of
the row, hence deterministic for identical input and weights. -/
theorem topk_selects_largest_stable (row : List ℚ) :
    (topK TOP_K row).length = min TOP_K row.length ∧
    (∀ p ∈ topK TOP_K row, ∃ h : p.2 < row.length, row.get ⟨p.2, h⟩ = p.1) ∧
    (topK TOP_K row).Pairwise (fun a b => b.1 < a.1 ∨ (a.1 = b.1 ∧ a.2 < b.2)) ∧
    ∀ j (hj : j < row.length), (row.get ⟨j, hj⟩, j) ∉ topK TOP_K row →
      ∀ p ∈ topK TOP_K row, row.get ⟨j, hj⟩ < p.1 ∨ (row.get ⟨j, hj⟩ = p.1 ∧ p.2 < j) :=
  ⟨topK_length TOP_K row, fun _ hp => topK_mem TOP_K row hp,
   topK_pairwise_strict TOP_K row, fun j hj hnot => topK_dropped TOP_K row j hj hnot⟩

/-- C6: under the Estimator notebook's centered-unit normalization, every
channel value v in [0, 255] is mapped to v / 255.0 - 0.5, and every decoded
image's normalized values lie in [-0.5, 0.5]. -/
theorem centered_unit_normalization (v : ℚ) (h0 : 0 ≤ v) (h1 : v ≤ 255) :
    normalizePixel v = v / 255 - 1/2 ∧
    -(1/2) ≤ normalizePixel v ∧ normalizePixel v ≤ 1/2 ∧
    ∀ (img : Image) (y x : Fin 224) (c : Fin 3),
      normalizeImage img y x c = ((img y x c : ℕ) : ℚ) / 255 - 1/2 ∧
      -(1/2) ≤ normalizeImage img y x c ∧ normalizeImage img y x c ≤ 1/2 := by
  obtain ⟨ha, hb⟩ := normalizePixel_bounds v h0 h1
  refine ⟨rfl, ha, hb, ?_⟩
  intro img y x c
  have h0c : (0 : ℚ) ≤ ((img y x c : ℕ) : ℚ) := by positivity
  have h1c : ((img y x c : ℕ) : ℚ) ≤ 255 := by
    have hval : (img y x c : ℕ) ≤ 255 := by
      have := (img y x c).isLt
      omega
    exact_mod_cast hval
  obtain ⟨ha2, hb2⟩ := normalizePixel_bounds _ h0c h1c
  exact ⟨rfl, ha2, hb2⟩

theorem centered_unit_normalization_witness :
    normalizePixel 128 = 128 / 255 - 1/2 ∧
    -(1/2) ≤ normalizePixel 128 ∧ normalizePixel 128 ≤ 1/2 ∧
    ∀ (img : Image) (y x : Fin 224) (c : Fin 3),
      normalizeImage img y x c = ((img y x c : ℕ) : ℚ) / 255 - 1/2 ∧
      -(1/2) ≤ normalizeImage img y x c ∧ normalizeImage img y x c ≤ 1/2 :=
  centered_unit_normalization 128 (by norm_num) (by norm_num)

/-- C7: under the Keras notebook's normalization, each pixel channel value
has a fixed per-channel mean subtracted after the RGB to BGR channel
reversal, with no rescaling (differences of pixel values are preserved
exactly); in particular the outputs are not constrained to [-0.5, 0.5]: a
pure-white pixel maps to 255 - 103.939 on the first output channel. -/
theorem keras_mean_subtracted_policy :
    (∀ (img : Image) (y x : Fin 224) (c : Fin 3),
      kerasPreprocessImage img y x c
        = ((img y x (channelReverse c) : ℕ) : ℚ) - kerasChannelMean c) ∧
    (∀ (img img2 : Image) (y x y2 x2 : Fin 224) (c : Fin 3),
      kerasPreprocessImage img y x c - kerasPreprocessImage img2 y2 x2 c
        = ((img y x (channelReverse c) : ℕ) : ℚ)
          - ((img2 y2 x2 (channelReverse c) : ℕ) : ℚ)) ∧
    ∃ (img : Image) (y x : Fin 224) (c : Fin 3),
      1/2 < kerasPreprocessImage img y x c := by
  refine ⟨fun img y x c => rfl, fun img img2 y x y2 x2 c => by
    simp only [kerasPreprocessImage, kerasPreprocessInput]
    ring, ?_⟩
  refine ⟨fun _ _ _ => ⟨255, by norm_num⟩, 0, 0, 0, ?_⟩
  have h : kerasPreprocessImage (fun _ _ _ => (⟨255, by norm_num⟩ : Fin 256)) 0 0 0
      = ((255 : ℕ) : ℚ) - kerasChannelMean 0 := rfl
  rw [h]
  norm_num [kerasChannelMean]

/-- C9: the Estimator path and the Keras path expose the same
request/response contract: the single request field 'images', the response
fields 'classes' and 'probabilities', both registered under signature key
'predict'; and the Keras path's per-row reduction (modelled from the spec)
returns exactly the Estimator path's top-K classes and
restricted-softmax probabilities. -/
theorem both_paths_same_contract :
    estimatorSignature = kerasSignature ∧
    ∀ row : List ℚ, kerasTopKReduction row = (topKProbs row, topKClasses row) :=
  ⟨rfl, fun _ => rfl⟩

/-- C10: exporting a servable bundle to a version number under which a
bundle already exists fails with ConfigurationError.versionExists and
leaves the whole version store unmodified. -/
theorem export_existing_version_fails (store : VersionStore) (version : ℕ)
    (bundle : ServableSignature) (h : (store version).isSome) :
    (exportServable store version bundle).1 = some ConfigurationError.versionExists ∧
    (exportServable store version bundle).2 = store := by
  obtain ⟨b0, hb0⟩ := Option.isSome_iff_exists.mp h
  unfold exportServable
  rw [hb0]
  exact ⟨rfl, rfl⟩

theorem export_existing_version_fails_witness :
    (exportServable (fun v => if v = 1 then some estimatorSignature else none) 1
        kerasSignature).1 = some ConfigurationError.versionExists ∧
    (exportServable (fun v => if v = 1 then some estimatorSignature else none) 1
        kerasSignature).2 = (fun v => if v = 1 then some estimatorSignature else none) :=
  export_existing_version_fails _ 1 kerasSignature (by simp)

/-- C2: for every valid JPEG batch of any size N (including N = 0, since the
request's images field is an arbitrary-length sequence), the served response
has classes and probabilities of length N, and every inner list has length
exactly TOP_K = 5. -/
theorem response_shape (decodeJpeg : ByteSeq → Option Image)
    (network : FloatImage → List ℚ) (images : List ByteSeq)
    (hnet : ∀ img, (network img).length = LABEL_CLASSES)
    (hvalid : ∀ b ∈ images, (decodeJpeg b).isSome) :
    ∃ p, resnet_model_fn decodeJpeg network images = .ok p ∧
      p.classes.length = images.length ∧
      p.probabilities.length = images.length ∧
      (∀ c ∈ p.classes, c.length = TOP_K) ∧
      (∀ q ∈ p.probabilities, q.length = TOP_K) := by
  obtain ⟨l2, hl2, hlen⟩ := mapFn_isSome (preprocess_image decodeJpeg) images
    (fun b hb => by simpa [preprocess_image] using hvalid b hb)
  refine ⟨_, resnet_model_fn_ok decodeJpeg network images l2 hl2, by simp [hlen],
    by simp [hlen], ?_, ?_⟩
  · intro c hc
    obtain ⟨row, hrow, hc2⟩ := List.mem_map.mp hc
    obtain ⟨x, _, hrowx⟩ := List.mem_map.mp hrow
    rw [← hc2, topKClasses, List.length_map, topK_length, ← hrowx, hnet x]
    decide
  · intro q hq
    obtain ⟨row, hrow, hq2⟩ := List.mem_map.mp hq
    obtain ⟨x, _, hrowx⟩ := List.mem_map.mp hrow
    rw [← hq2, topKProbs_length, ← hrowx, hnet x]
    decide

theorem response_shape_witness :
    ∃ p, resnet_model_fn (fun _ => some (fun _ _ _ => 0))
          (fun _ => List.replicate LABEL_CLASSES 0) [[0], [1]] = .ok p ∧
      p.classes.length = 2 ∧
      p.probabilities.length = 2 ∧
      (∀ c ∈ p.classes, c.length = TOP_K) ∧
      (∀ q ∈ p.probabilities, q.length = TOP_K) :=
  response_shape _ _ _ (fun _ => by simp) (fun _ _ => by simp)

/-- C1: for every valid batch, the served probabilities of each image are
tf.nn.softmax applied to only the TOP_K = 5 logits selected by tf.nn.top_k
from that image's score row (not to the full 1001-way vector), and they sum
to exactly 1 over the 5 reported classes. -/
theorem probabilities_softmax_restricted (decodeJpeg : ByteSeq → Option Image)
    (network : FloatImage → List ℚ) (images : List ByteSeq)
    (hnet : ∀ img, (network img).length = LABEL_CLASSES)
    (hvalid : ∀ b ∈ images, (decodeJpeg b).isSome) :
    ∃ processedImages,
      mapFn (preprocess_image decodeJpeg) images = some processedImages ∧
      resnet_model_fn decodeJpeg network images =
        .ok { classes := (processedImages.map network).map topKClasses
              probabilities := (processedImages.map network).map topKProbs } ∧
      ∀ row ∈ processedImages.map network,
        topKProbs row
          = softmax (((topK TOP_K row).map Prod.fst).map (fun q : ℚ => (q : ℝ))) ∧
        (topKProbs row).sum = 1 := by
  obtain ⟨l2, hl2, _⟩ := mapFn_isSome (preprocess_image decodeJpeg) images
    (fun b hb => by simpa [preprocess_image] using hvalid b hb)
  refine ⟨l2, hl2, resnet_model_fn_ok decodeJpeg network images l2 hl2, ?_⟩
  intro row hrow
  obtain ⟨x, _, hrowx⟩ := List.mem_map.mp hrow
  refine ⟨rfl, ?_⟩
  apply topKProbs_sum
  intro hnil
  have hlen := hnet x
  rw [hrowx, hnil] at hlen
  simp [LABEL_CLASSES] at hlen

theorem probabilities_softmax_restricted_witness :
    ∃ processedImages,
      mapFn (preprocess_image (fun _ => some (fun _ _ _ => 0))) [[2]]
        = some processedImages ∧
      resnet_model_fn (fun _ => some (fun _ _ _ => 0))
          (fun _ => List.replicate LABEL_CLASSES 0) [[2]] =
        .ok { classes :=
                (processedImages.map (fun _ => List.replicate LABEL_CLASSES 0)).map topKClasses
              probabilities :=
                (processedImages.map (fun _ => List.replicate LABEL_CLASSES 0)).map topKProbs } ∧
      ∀ row ∈ processedImages.map (fun _ => List.replicate LABEL_CLASSES 0),
        topKProbs row
          = softmax (((topK TOP_K row).map Prod.fst).map (fun q : ℚ => (q : ℝ))) ∧
        (topKProbs row).sum = 1 :=
  probabilities_softmax_restricted _ _ _ (fun _ => by simp) (fun _ _ => by simp)

/-- C4: for every image of every valid batch, the 5 served probabilities are
sorted in non-increasing order (tf.nn.top_k returns the logits in descending
order and the restricted softmax is monotone) and their sum is within 1e-5
of 1 (it is exactly 1 in the idealized reals). -/
theorem probabilities_sorted_and_normalized (decodeJpeg : ByteSeq → Option Image)
    (network : FloatImage → List ℚ) (images : List ByteSeq)
    (hnet : ∀ img, (network img).length = LABEL_CLASSES)
    (hvalid : ∀ b ∈ images, (decodeJpeg b).isSome) :
    ∃ p, resnet_model_fn decodeJpeg network images = .ok p ∧
      ∀ q ∈ p.probabilities,
        q.Pairwise (fun a b => b ≤ a) ∧ |q.sum - 1| ≤ 1 / 100000 := by
  obtain ⟨l2, hl2, _⟩ := mapFn_isSome (preprocess_image decodeJpeg) images
    (fun b hb => by simpa [preprocess_image] using hvalid b hb)
  refine ⟨_, resnet_model_fn_ok decodeJpeg network images l2 hl2, ?_⟩
  intro q hq
  obtain ⟨row, hrow, hq2⟩ := List.mem_map.mp hq
  obtain ⟨x, _, hrowx⟩ := List.mem_map.mp hrow
  have hne : row ≠ [] := by
    intro hnil
    have hlen := hnet x
    rw [hrowx, hnil] at hlen
    simp [LABEL_CLASSES] at hlen
  rw [← hq2]
  refine ⟨topKProbs_sorted row, ?_⟩
  rw [topKProbs_sum row hne]
  norm_num

theorem probabilities_sorted_and_normalized_witness :
    ∃ p, resnet_model_fn (fun _ => some (fun _ _ _ => 0))
          (fun _ => List.replicate LABEL_CLASSES 0) [[3]] = .ok p ∧
      ∀ q ∈ p.probabilities,
        q.Pairwise (fun a b => b ≤ a) ∧ |q.sum - 1| ≤ 1 / 100000 :=
  probabilities_sorted_and_normalized _ _ _ (fun _ => by simp) (fun _ _ => by simp)

/-- C5: if any image byte string of the batch fails to decode, the whole
call fails with the DecodeError, atomically: the error carries no
predictions, so no partial or sparse result and no silently-wrong
prediction is returned for any entry. -/
theorem invalid_jpeg_fails_whole_batch (decodeJpeg : ByteSeq → Option Image)
    (network : FloatImage → List ℚ) (images : List ByteSeq)
    (hbad : ∃ b ∈ images, decodeJpeg b = none) :
    resnet_model_fn decodeJpeg network images = .error DecodeError.invalidJpeg := by
  apply resnet_model_fn_err
  rw [mapFn_eq_none]
  obtain ⟨b, hb, hbn⟩ := hbad
  exact ⟨b, hb, by simp [preprocess_image, hbn]⟩

theorem invalid_jpeg_fails_whole_batch_witness :
    resnet_model_fn (fun _ => none) (fun _ => List.replicate LABEL_CLASSES 0) [[4]]
      = .error DecodeError.invalidJpeg :=
  invalid_jpeg_fails_whole_batch _ _ _ ⟨[4], by simp, rfl⟩

/-- C8: the pipeline is permutation-equivariant with no cross-contamination:
on a valid batch, the i-th served prediction is a function of the i-th input
image alone, and serving a permuted batch yields the correspondingly
permuted predictions. -/
theorem order_preserved_no_cross_contamination (decodeJpeg : ByteSeq → Option Image)
    (network : FloatImage → List ℚ) {n : ℕ} (g : Fin n → ByteSeq)
    (σ : Equiv.Perm (Fin n)) (hvalid : ∀ i, (decodeJpeg (g i)).isSome) :
    ∃ p p2,
      resnet_model_fn decodeJpeg network (List.ofFn g) = .ok p ∧
      resnet_model_fn decodeJpeg network (List.ofFn (fun i => g (σ i))) = .ok p2 ∧
      (∀ i : Fin n,
        p.classes[i.1]?
          = (preprocess_image decodeJpeg (g i)).map (fun x => topKClasses (network x)) ∧
        p.probabilities[i.1]?
          = (preprocess_image decodeJpeg (g i)).map (fun x => topKProbs (network x))) ∧
      (∀ i : Fin n,
        p2.classes[i.1]? = p.classes[(σ i).1]? ∧
        p2.probabilities[i.1]? = p.probabilities[(σ i).1]?) := by
  have hpre : ∀ i, preprocess_image decodeJpeg (g i)
      = some (normalizeImage ((decodeJpeg (g i)).get (hvalid i))) := by
    intro i
    conv_lhs => rw [preprocess_image, ← Option.some_get (hvalid i)]
    rfl
  have hmap1 := mapFn_ofFn (preprocess_image decodeJpeg) g
    (fun i => normalizeImage ((decodeJpeg (g i)).get (hvalid i))) hpre
  have hmap2 := mapFn_ofFn (preprocess_image decodeJpeg) (fun i => g (σ i))
    (fun i => normalizeImage ((decodeJpeg (g (σ i))).get (hvalid (σ i))))
    (fun i => hpre (σ i))
  refine ⟨_, _, resnet_model_fn_ok decodeJpeg network _ _ hmap1,
    resnet_model_fn_ok decodeJpeg network _ _ hmap2, ?_, ?_⟩
  · intro i
    rw [hpre i]
    constructor <;>
      simp [List.map_ofFn, List.getElem?_ofFn, List.ofFnNthVal, i.isLt, Function.comp]
  · intro i
    constructor <;>
      simp [List.map_ofFn, List.getElem?_ofFn, List.ofFnNthVal, i.isLt, (σ i).isLt,
        Function.comp]

theorem order_preserved_no_cross_contamination_witness :
    ∃ p p2,
      resnet_model_fn (fun _ => some (fun _ _ _ => 0))
        (fun _ => List.replicate LABEL_CLASSES 0)
        (List.ofFn (fun i : Fin 2 => [i.1])) = .ok p ∧
      resnet_model_fn (fun _ => some (fun _ _ _ => 0))
        (fun _ => List.replicate LABEL_CLASSES 0)
        (List.ofFn (fun i : Fin 2 => [(Equiv.swap (0 : Fin 2) 1 i).1])) = .ok p2 ∧
      (∀ i : Fin 2,
        p.classes[i.1]?
          = (preprocess_image (fun _ => some (fun _ _ _ => 0)) [i.1]).map
              (fun _ => topKClasses (List.replicate LABEL_CLASSES 0)) ∧
        p.probabilities[i.1]?
          = (preprocess_image (fun _ => some (fun _ _ _ => 0)) [i.1]).map
              (fun _ => topKProbs (List.replicate LABEL_CLASSES 0))) ∧
      (∀ i : Fin 2,
        p2.classes[i.1]? = p.classes[(Equiv.swap (0 : Fin 2) 1 i).1]? ∧
        p2.probabilities[i.1]? = p.probabilities[(Equiv.swap (0 : Fin 2) 1 i).1]?) :=
  order_preserved_no_cross_contamination _ _ _ (Equiv.swap 0 1) (fun _ => rfl)

end ResNetServing
